import Mathlib

/-!
Shallow embedding of the Performance Timeline & Scheduling Engine of
`src/js/gmnx-viewer.js` (gmnx-viewer).

Conventions of the embedding:
* JS numbers are modelled as exact rationals (`ℚ`).  Every numeric operation
  the embedded code performs on them (addition, multiplication, division,
  comparison) is modelled by the corresponding exact operation on `ℚ`.
* `Math.log(n) / Math.log(2)` in `MnxUtils.isPowerOf2` is modelled as the
  exact real base-2 logarithm; its fractional part is zero iff
  `n = 2 ^ ⌊log₂ n⌋`, which is the form used below (with a fuel-based
  structural `natLog2` computing `⌊log₂ n⌋`).
* Regular-expression matches are hand-rolled over `List Char`; the patterns
  involved (`^(\d*)([*\/])(\d+)(d*)$` and `^(-?\d+)\/(\d+)$`) are
  deterministic, so no backtracking is needed.
* `Tone.Transport` is modelled as the list of registered callbacks,
  each an absolute time paired with a description of the scheduled action,
  plus a running flag.  `Tone.Transport.cancel(0)` removes every callback
  whose time is `≥ 0`.
* DOM / SVG side effects are reduced to the decoration state they maintain:
  a `highlighted` flag per decoration (identified by its index) and the
  `activeRegions` set of the performance.
* `Array.prototype.sort` with the comparator `(a, b) => a.start - b.start`
  is a stable sort by `start`; it is modelled by `List.insertionSort`
  (stable) with the relation `a.start ≤ b.start`.
-/

/-- `Rational` (gmnx-viewer.js line 35): a pair of JS numbers held as
numerator and denominator. -/
structure Rational where
  numerator : ℚ
  denominator : ℚ
deriving DecidableEq

/-- `Rational.toNumber` (line 41): numerator divided by denominator. -/
def Rational.toNumber (r : Rational) : ℚ :=
  r.numerator / r.denominator

/-- JS `Number.parseInt` on a nonempty string of decimal digits. -/
def digitsToNat (ds : List Char) : Nat :=
  ds.foldl (fun a c => a * 10 + (c.toNat - '0'.toNat)) 0

/-- The regular-expression match of `MnxUtils.parseRational` (line 50):
`^(-?\d+)\/(\d+)$`, returning the signed numerator and the denominator. -/
def matchRational (s : List Char) : Option (Int × Nat) :=
  let sign : Bool × List Char :=
    match s with
    | '-' :: t => (true, t)
    | _ => (false, s)
  let m1 := sign.2.takeWhile Char.isDigit
  let rest := sign.2.dropWhile Char.isDigit
  if m1.isEmpty then none
  else
    match rest with
    | '/' :: rest2 =>
        if rest2.isEmpty then none
        else if rest2.all Char.isDigit then
          some (if sign.1 then -(digitsToNat m1 : Int) else (digitsToNat m1 : Int),
                digitsToNat rest2)
        else none
    | _ => none

/-- `MnxUtils.parseRational` (lines 49-54): on a regex match, build a
`Rational` from the two parsed integers; otherwise return nothing. -/
def parseRational (s : String) : Option Rational :=
  match matchRational s.toList with
  | some nd => some ⟨(nd.1 : ℚ), (nd.2 : ℚ)⟩
  | none => none

/-- Fuel-based floor base-2 logarithm (structural recursion so that the
kernel can evaluate it). -/
def natLog2Aux : Nat → Nat → Nat
  | 0, _ => 0
  | fuel + 1, n => if n < 2 then 0 else natLog2Aux fuel (n / 2) + 1

/-- `⌊log₂ n⌋` for `n ≥ 1` (and `0` for `n ∈ {0, 1}`). -/
def natLog2 (n : Nat) : Nat := natLog2Aux n n

/-- `MnxUtils.isPowerOf2` (lines 57-60).  The source computes
`ln2 = Math.log(number) / Math.log(2)` and tests `ln2 - Math.floor(ln2) == 0`;
with exact real logarithms this holds iff `n = 2 ^ ⌊log₂ n⌋`. -/
def MnxUtils.isPowerOf2 (n : Nat) : Bool :=
  n == 2 ^ natLog2 n

/-- The regular-expression match of `MnxUtils.parseNoteValueQuantity`
(line 64): `^(\d*)([*\/])(\d+)(d*)$`, returning
(multiplier, fractional?, base value, dot count); the multiplier defaults
to 1 when its capture group is empty, and fractional? records whether the
operator was `/`. -/
def matchNoteValue (s : List Char) : Option (Nat × Bool × Nat × Nat) :=
  let m1 := s.takeWhile Char.isDigit
  let rest := s.dropWhile Char.isDigit
  match rest with
  | op :: rest2 =>
    if op == '*' || op == '/' then
      let m3 := rest2.takeWhile Char.isDigit
      let rest3 := rest2.dropWhile Char.isDigit
      if m3.isEmpty then none
      else if rest3.all (fun c => c == 'd') then
        some (if m1.isEmpty then 1 else digitsToNat m1, op == '/', digitsToNat m3, rest3.length)
      else none
    else none
  | [] => none

/-- `MnxUtils.parseNoteValueQuantity` (lines 63-88): on a match, reject
base values that are not powers of two, take the reciprocal of the base
value when the operator is `/`, apply dot augmentation
(`multiplier *= 2^(dots+1) - 1`, `value /= 2^dots`) when dots are present,
and build a `Rational` as in the source:
`(value < 1) ? Rational(multiplier, 1/value) : Rational(multiplier*value, 1)`. -/
def MnxUtils.parseNoteValueQuantity (s : String) : Option Rational :=
  match matchNoteValue s.toList with
  | none => none
  | some q =>
    let multiplier : Nat := q.1
    let fractional : Bool := q.2.1
    let value0 : Nat := q.2.2.1
    let dots : Nat := q.2.2.2
    if MnxUtils.isPowerOf2 value0 then
      let value : ℚ := if fractional then 1 / (value0 : ℚ) else (value0 : ℚ)
      let mv : ℚ × ℚ :=
        if 0 < dots then ((multiplier : ℚ) * (2 ^ (dots + 1) - 1), value / 2 ^ dots)
        else ((multiplier : ℚ), value)
      if mv.2 < 1 then some ⟨mv.1, 1 / mv.2⟩ else some ⟨mv.1 * mv.2, 1⟩
    else none

/-- A tempo entry as pushed by `GmnxPerformance.addTempo` (line 326). -/
structure TempoEntry where
  start : ℚ
  unitSeconds : ℚ
deriving DecidableEq

/-- A region entry as pushed by `GmnxPerformance.addRegion` (line 330):
`{start, end, view, region, cursorStart, cursorEnd}`.  The source field
`end` is spelled `end_` here because `end` is reserved in Lean. -/
structure RegionEntry where
  start : ℚ
  end_ : ℚ
  view : String
  region : String
  cursorStart : Option String
  cursorEnd : Option String
deriving DecidableEq

/-- An event entry as pushed by `GmnxPerformanceData.addEvent` (line 401):
`{start, frequency, duration, dynamics, view, graphics}`.  `view` and
`graphics` are `none` when the corresponding attribute is absent (falsy). -/
structure EventEntry where
  start : ℚ
  frequency : ℚ
  duration : ℚ
  dynamics : ℚ
  view : Option String
  graphics : Option (List String)
deriving DecidableEq

/-- The variant-specific state of a performance: `GmnxPerformanceData`
carries its `events` array and (once created) a `synth` whose value is the
number of currently sounding voices; `GmnxPerformanceAudio` carries the
handle of the currently playing buffer `source` (none when not playing). -/
inductive PerfKind where
  | data (events : List EventEntry) (synth : Option Nat)
  | audio (source : Option Nat)
deriving DecidableEq

/-- State of a `GmnxPerformance` (line 318).  Decorations are identified by
the index of the region or event that created them; `highlighted` records
each decoration's `highlighted` flag and `activeRegions` is the
performance's map of currently active decorations. -/
structure GmnxPerformance where
  tempos : List TempoEntry
  regions : List RegionEntry
  timescale : Option ℚ
  scheduled : Bool
  activeRegions : List Nat
  highlighted : Nat → Bool
  kind : PerfKind

/-- One scheduled `Tone.Transport` callback, described by what it does when
fired. -/
inductive SchedAction where
  | triggerSynth (frequency durationSeconds velocity : ℚ)
  | showGraphics (event : Nat)
  | hideGraphics (event : Nat)
  | showRegion (region : Nat)
  | hideRegion (region : Nat)
  | startBuffer
deriving DecidableEq

/-- The shared `Tone.Transport`: its timeline of registered callbacks
(in registration order) and whether it is running. -/
structure Transport where
  callbacks : List (ℚ × SchedAction)
  running : Bool
deriving DecidableEq

instance : IsTotal TempoEntry (fun a b => a.start ≤ b.start) :=
  ⟨fun a b => le_total a.start b.start⟩

instance : IsTrans TempoEntry (fun a b => a.start ≤ b.start) :=
  ⟨fun _ _ _ hab hbc => le_trans hab hbc⟩

instance : IsTotal EventEntry (fun a b => a.start ≤ b.start) :=
  ⟨fun a b => le_total a.start b.start⟩

instance : IsTrans EventEntry (fun a b => a.start ≤ b.start) :=
  ⟨fun _ _ _ hab hbc => le_trans hab hbc⟩

/-- `this.tempos.sort((a, b) => a.start - b.start)` (line 359): a stable
sort ascending by `start`. -/
def sortTempos (l : List TempoEntry) : List TempoEntry :=
  List.insertionSort (fun a b => a.start ≤ b.start) l

/-- `this.events.sort((a, b) => a.start - b.start)` (line 406): a stable
sort ascending by `start`. -/
def sortEvents (l : List EventEntry) : List EventEntry :=
  List.insertionSort (fun a b => a.start ≤ b.start) l

/-- The tempo list after the tempo-resolution steps of
`GmnxPerformance.prepare` (lines 359-363): sort ascending by `start`, then
push the implicit entry `{start: 0, unitSeconds: 1}` if the list is empty. -/
def resolvedTempos (p : GmnxPerformance) : List TempoEntry :=
  let t := sortTempos p.tempos
  if t.isEmpty then [⟨0, 1⟩] else t

/-- `this.timescale = this.tempos[0].unitSeconds` (line 365) after tempo
resolution.  The list produced by `resolvedTempos` is never empty, so the
`headD` default is never used. -/
def resolvedTimescale (p : GmnxPerformance) : ℚ :=
  ((resolvedTempos p).headD ⟨0, 1⟩).unitSeconds

/-- Callbacks registered by `GmnxPerformance.scheduleRegions`
(lines 335-353) for the regions from index `i` on: for each region a show
callback at `start * timescale` and a hide callback at `end * timescale`,
in that registration order. -/
def scheduleRegionsAux (ts : ℚ) : Nat → List RegionEntry → List (ℚ × SchedAction)
  | _, [] => []
  | i, r :: rest =>
      (r.start * ts, SchedAction.showRegion i) ::
      (r.end_ * ts, SchedAction.hideRegion i) ::
      scheduleRegionsAux ts (i + 1) rest

/-- All callbacks registered by `GmnxPerformance.scheduleRegions`. -/
def scheduleRegionsCallbacks (ts : ℚ) (regions : List RegionEntry) : List (ℚ × SchedAction) :=
  scheduleRegionsAux ts 0 regions

/-- Callbacks registered by `GmnxPerformanceData.schedulePerformance`
(lines 405-454) for the (already sorted) events from index `i` on: for each
event one synthesizer callback at `start * timescale` triggering for
`duration * timescale` seconds at the event's frequency with velocity
`dynamics / 127`; and, when the event has both a `view` and `graphics`, a
show callback at `start * timescale` and a hide callback at
`(start + duration) * timescale`. -/
def scheduleEventsAux (ts : ℚ) : Nat → List EventEntry → List (ℚ × SchedAction)
  | _, [] => []
  | i, e :: rest =>
      (e.start * ts, SchedAction.triggerSynth e.frequency (e.duration * ts) (e.dynamics / 127)) ::
      ((if e.view.isSome && e.graphics.isSome then
          [(e.start * ts, SchedAction.showGraphics i),
           ((e.start + e.duration) * ts, SchedAction.hideGraphics i)]
        else []) ++
       scheduleEventsAux ts (i + 1) rest)

/-- All callbacks registered by `schedulePerformance` of the two concrete
performance classes: `GmnxPerformanceData` (lines 405-454) sorts its events
and schedules them; `GmnxPerformanceAudio` (lines 483-487) schedules a
single buffer-start callback at time 0. -/
def schedulePerformanceCallbacks (ts : ℚ) : PerfKind → List (ℚ × SchedAction)
  | .data events _ => scheduleEventsAux ts 0 (sortEvents events)
  | .audio _ => [(0, SchedAction.startBuffer)]

/-- Every callback `GmnxPerformance.prepare` registers with the Transport:
`schedulePerformance()` first (line 369), then `scheduleRegions()`
(line 370). -/
def prepareCallbacks (p : GmnxPerformance) : List (ℚ × SchedAction) :=
  schedulePerformanceCallbacks (resolvedTimescale p) p.kind ++
  scheduleRegionsCallbacks (resolvedTimescale p) p.regions

/-- `GmnxPerformance.prepare` (lines 357-373).  Guarded by `scheduled`:
when not yet scheduled it sorts the tempos, synthesizes the implicit tempo
if none exist, resolves the timescale, cancels every Transport callback
from time 0 on (`Tone.Transport.cancel(0)`), registers the performance and
region callbacks, sorts the events and creates the synthesizer (for a
data performance), and sets `scheduled`. -/
def prepare (p : GmnxPerformance) (tr : Transport) : GmnxPerformance × Transport :=
  if p.scheduled then (p, tr)
  else
    ({ p with
        tempos := resolvedTempos p
        timescale := some (resolvedTimescale p)
        scheduled := true
        kind :=
          match p.kind with
          | .data events _ => .data (sortEvents events) (some 0)
          | .audio s => .audio s },
     { tr with
        callbacks := tr.callbacks.filter (fun c => decide (c.1 < 0)) ++ prepareCallbacks p })

/-- `GmnxPerformance.stop` (lines 385-391) together with the overrides of
`GmnxPerformanceData.stop` (lines 460-465) and `GmnxPerformanceAudio.stop`
(lines 489-496): halt the Transport, hide every decoration in the active
set, clear the active set; then release all synthesizer voices (if a synth
exists) or stop and null the playing buffer source. -/
def GmnxPerformance.stop (p : GmnxPerformance) (tr : Transport) : GmnxPerformance × Transport :=
  let tr2 := { tr with running := false }
  let p2 := { p with
      highlighted := fun d => if d ∈ p.activeRegions then false else p.highlighted d
      activeRegions := ([] : List Nat) }
  match p.kind with
  | .data events synth => ({ p2 with kind := .data events (synth.map fun _ => 0) }, tr2)
  | .audio _ => ({ p2 with kind := .audio none }, tr2)

/-- Number of currently sounding synthesizer voices of a performance
(0 when it is not a data performance or has no synth). -/
def soundingVoices : PerfKind → Nat
  | .data _ (some v) => v
  | _ => 0

/-- The playing buffer-source handle of a performance (none when it is not
an audio performance or nothing is playing). -/
def audioSource : PerfKind → Option Nat
  | .audio s => s
  | _ => none

/-- One tick of the cursor polling loop installed by `GmnxViewCursor.show`
(lines 290-301): divide the Transport's elapsed seconds by the
performance's timescale, compute `p = (time - start) / (end - start)`, and
set each of the four line coordinates to
`cursorStart[c] + p * (cursorEnd[c] - cursorStart[c])`. -/
structure CursorLine where
  x1 : ℚ
  y1 : ℚ
  x2 : ℚ
  y2 : ℚ
deriving DecidableEq

/-- The four coordinates written by one tick of the cursor interval. -/
def cursorTick (timescale start end_ : ℚ) (cursorStart cursorEnd : CursorLine)
    (transportSeconds : ℚ) : CursorLine :=
  let time := transportSeconds / timescale
  let p := (time - start) / (end_ - start)
  ⟨cursorStart.x1 + p * (cursorEnd.x1 - cursorStart.x1),
   cursorStart.y1 + p * (cursorEnd.y1 - cursorStart.y1),
   cursorStart.x2 + p * (cursorEnd.x2 - cursorStart.x2),
   cursorStart.y2 + p * (cursorEnd.y2 - cursorStart.y2)⟩

/-- The Transport after `GmnxViewer.parse` finishes loading and runs
`this.performances.forEach(perf => perf.prepare())` (line 635): each
performance in order is prepared against the evolving shared Transport. -/
def prepareAll : List GmnxPerformance → Transport → Transport
  | [], tr => tr
  | p :: rest, tr => prepareAll rest (prepare p tr).2

/-- A convenient fully-default performance used by concrete instantiations:
no tempos, no regions, unprepared, nothing active, an audio performance
with nothing playing. -/
def basePerf : GmnxPerformance where
  tempos := []
  regions := []
  timescale := none
  scheduled := false
  activeRegions := []
  highlighted := fun _ => false
  kind := .audio none

/-- An idle empty Transport. -/
def emptyTransport : Transport where
  callbacks := []
  running := false

theorem natLog2Aux_eq (fuel n : Nat) (h : n ≤ fuel) : natLog2Aux fuel n = Nat.log 2 n := by
  induction fuel generalizing n with
  | zero =>
    have hn : n = 0 := by omega
    subst hn
    simp [natLog2Aux]
  | succ fuel ih =>
    by_cases h2 : n < 2
    · unfold natLog2Aux
      rw [if_pos h2, Nat.log_eq_zero_iff.2 (Or.inl h2)]
    · push_neg at h2
      unfold natLog2Aux
      rw [if_neg (by omega)]
      have hdiv : n / 2 ≤ fuel := by
        have := Nat.div_lt_self (show 0 < n by omega) (show 1 < 2 by omega)
        omega
      rw [ih _ hdiv]
      have hpos : 0 < Nat.log 2 n := Nat.log_pos (by omega) (by omega)
      have hrec := Nat.log_div_base 2 n
      omega

theorem natLog2_pow (k : Nat) : natLog2 (2 ^ k) = k := by
  rw [natLog2, natLog2Aux_eq _ _ le_rfl, Nat.log_pow (by norm_num)]

/-- The power-of-two test agrees with being a power of two (`1 = 2^0`
included). -/
theorem isPowerOf2_iff (n : Nat) : MnxUtils.isPowerOf2 n = true ↔ ∃ k, n = 2 ^ k := by
  unfold MnxUtils.isPowerOf2
  rw [beq_iff_eq]
  constructor
  · intro h
    exact ⟨natLog2 n, h⟩
  · rintro ⟨k, rfl⟩
    rw [natLog2_pow]

/-- The dot-augmentation conditional of `parseNoteValueQuantity` collapses
to the `dots > 0` branch formula for every dot count (for zero dots the
formula is the identity). -/
theorem dotsPair (a base : ℚ) (d : ℕ) :
    (if 0 < d then (a * (2 ^ (d + 1) - 1), base / 2 ^ d) else (a, base))
      = (a * (2 ^ (d + 1) - 1), base / 2 ^ d) := by
  cases d with
  | zero => norm_num [Prod.ext_iff]
  | succ d => rw [if_pos (Nat.succ_pos d)]

/-- `toNumber` of the `Rational` built by the final conditional of
`parseNoteValueQuantity` is `multiplier * value` in both branches. -/
theorem toNumber_source_branch (a value : ℚ) :
    ((if value < 1 then (⟨a, 1 / value⟩ : Rational) else ⟨a * value, 1⟩) : Rational).toNumber
      = a * value := by
  by_cases hlt : value < 1
  · rw [if_pos hlt]
    unfold Rational.toNumber
    rw [one_div, div_inv_eq_mul]
  · rw [if_neg hlt]
    unfold Rational.toNumber
    simp

/-- Closed form of `parseNoteValueQuantity` on a matching token whose base
value passes the power-of-two test. -/
theorem parseNVQ_eq (s : String) (m : Nat) (f : Bool) (v d : Nat)
    (hm : matchNoteValue s.toList = some (m, f, v, d))
    (hp : MnxUtils.isPowerOf2 v = true) :
    MnxUtils.parseNoteValueQuantity s =
      some (if (if f then 1 / (v : ℚ) else (v : ℚ)) / 2 ^ d < 1
            then ⟨(m : ℚ) * (2 ^ (d + 1) - 1), 1 / ((if f then 1 / (v : ℚ) else (v : ℚ)) / 2 ^ d)⟩
            else ⟨(m : ℚ) * (2 ^ (d + 1) - 1) * ((if f then 1 / (v : ℚ) else (v : ℚ)) / 2 ^ d), 1⟩) := by
  unfold MnxUtils.parseNoteValueQuantity
  rw [hm]
  simp only [hp, if_true]
  rw [dotsPair, apply_ite some]

/-- C2: for every token matching `^(\d*)([*\/])(\d+)(d*)$` whose base value
`v` is an exact power of two, `parseNoteValueQuantity` returns a `Rational`
whose `toNumber` equals the conventional rhythmic value: the nominal value
(`m * v` for `*`, `m * (1/v)` for `/`) multiplied by `2^(dots+1) - 1` and
divided by `2^dots`. -/
theorem noteValue_conventional (s : String) (m : Nat) (f : Bool) (v d k : Nat)
    (hm : matchNoteValue s.toList = some (m, f, v, d)) (hv : v = 2 ^ k) :
    Option.map Rational.toNumber (MnxUtils.parseNoteValueQuantity s) =
      some ((m : ℚ) * (if f then 1 / (v : ℚ) else (v : ℚ)) * (2 ^ (d + 1) - 1) / 2 ^ d) := by
  have hp : MnxUtils.isPowerOf2 v = true := (isPowerOf2_iff v).2 ⟨k, hv⟩
  rw [parseNVQ_eq s m f v d hm hp, Option.map_some', toNumber_source_branch]
  congr 1
  ring

/-- C2 witness: the four examples of the claim, `/4` ↦ 1/4, `*2` ↦ 2,
`/4d` ↦ 3/8, `/8dd` ↦ 7/32. -/
theorem noteValue_conventional_witness :
    Option.map Rational.toNumber (MnxUtils.parseNoteValueQuantity "/4") = some (1 / 4) ∧
    Option.map Rational.toNumber (MnxUtils.parseNoteValueQuantity "*2") = some 2 ∧
    Option.map Rational.toNumber (MnxUtils.parseNoteValueQuantity "/4d") = some (3 / 8) ∧
    Option.map Rational.toNumber (MnxUtils.parseNoteValueQuantity "/8dd") = some (7 / 32) := by
  refine ⟨?_, ?_, ?_, ?_⟩
  · rw [noteValue_conventional "/4" 1 true 4 0 2 (by decide) (by norm_num)]
    norm_num
  · rw [noteValue_conventional "*2" 1 false 2 0 1 (by decide) (by norm_num)]
    norm_num
  · rw [noteValue_conventional "/4d" 1 true 4 1 2 (by decide) (by norm_num)]
    norm_num
  · rw [noteValue_conventional "/8dd" 1 true 8 2 3 (by decide) (by norm_num)]
    norm_num

/-- C6: `isPowerOf2` is correct (with `1 = 2^0` counted), agrees with the
claim's three sample points, and `parseNoteValueQuantity` returns no result
for any matching token whose base value is not an exact power of two (in
particular for `"/6"`). -/
theorem isPowerOf2_parse_correct :
    (∀ n : ℕ, 0 < n → (MnxUtils.isPowerOf2 n = true ↔ ∃ k, n = 2 ^ k)) ∧
    MnxUtils.isPowerOf2 1 = true ∧
    MnxUtils.isPowerOf2 3 = false ∧
    MnxUtils.isPowerOf2 1024 = true ∧
    MnxUtils.parseNoteValueQuantity "/6" = none ∧
    (∀ (s : String) (m : Nat) (f : Bool) (v d : Nat),
      matchNoteValue s.toList = some (m, f, v, d) → (¬ ∃ k, v = 2 ^ k) →
      MnxUtils.parseNoteValueQuantity s = none) := by
  refine ⟨fun n _ => isPowerOf2_iff n, by decide, by decide, by decide, by decide, ?_⟩
  intro s m f v d hm hk
  have hp : MnxUtils.isPowerOf2 v = false := by
    rw [← Bool.not_eq_true]
    exact fun h => hk ((isPowerOf2_iff v).1 h)
  unfold MnxUtils.parseNoteValueQuantity
  rw [hm]
  simp [hp]

/-- C6 witness: the universally quantified components instantiated at
concrete inputs `n = 8` and the token `"/6"`. -/
theorem isPowerOf2_parse_correct_witness :
    ((MnxUtils.isPowerOf2 8 = true) ↔ ∃ k, 8 = 2 ^ k) ∧
    MnxUtils.parseNoteValueQuantity "/6" = none := by
  refine ⟨isPowerOf2_parse_correct.1 8 (by norm_num), ?_⟩
  refine isPowerOf2_parse_correct.2.2.2.2.2 "/6" 1 true 6 0 (by decide) ?_
  rintro ⟨k, hk⟩
  rcases Nat.lt_or_ge k 3 with h | h
  · interval_cases k <;> norm_num at hk
  · have h8 : 2 ^ 3 ≤ 2 ^ k := Nat.pow_le_pow_right (by norm_num) h
    omega

/-- Helper for C9: the `Rational` built by the final conditional of
`parseNoteValueQuantity`, applied to an integer multiplier and a value of
the form `2^a / 2^b`, has an integer numerator and a strictly positive
integer denominator. -/
theorem branch_invariant (A : ℚ) (j : ℤ) (hA : A = (j : ℚ)) (a b : ℕ) :
    (∃ n : ℤ,
      ((if (2 : ℚ) ^ a / 2 ^ b < 1 then (⟨A, 1 / ((2 : ℚ) ^ a / 2 ^ b)⟩ : Rational)
        else ⟨A * ((2 : ℚ) ^ a / 2 ^ b), 1⟩)).numerator = (n : ℚ)) ∧
    ∃ w : ℕ, 0 < w ∧
      ((if (2 : ℚ) ^ a / 2 ^ b < 1 then (⟨A, 1 / ((2 : ℚ) ^ a / 2 ^ b)⟩ : Rational)
        else ⟨A * ((2 : ℚ) ^ a / 2 ^ b), 1⟩)).denominator = (w : ℚ) := by
  by_cases hc : (2 : ℚ) ^ a / 2 ^ b < 1
  · rw [if_pos hc]
    have hab : a ≤ b :=
      le_of_lt ((pow_lt_pow_iff_right₀ (by norm_num : (1 : ℚ) < 2)).1
        ((div_lt_one (by positivity)).1 hc))
    refine ⟨⟨j, hA⟩, 2 ^ (b - a), by positivity, ?_⟩
    rw [one_div_div]
    push_cast
    rw [pow_sub₀ (2 : ℚ) (by norm_num) hab, div_eq_mul_inv]
  · rw [if_neg hc]
    have hba : b ≤ a := by
      rw [not_lt, one_le_div (by positivity : (0 : ℚ) < 2 ^ b)] at hc
      exact (pow_le_pow_iff_right₀ (by norm_num : (1 : ℚ) < 2)).1 hc
    refine ⟨⟨j * 2 ^ (a - b), ?_⟩, 1, one_pos, by norm_num⟩
    rw [hA]
    push_cast
    rw [pow_sub₀ (2 : ℚ) (by norm_num) hba, div_eq_mul_inv]

/-- Helper for C9: the `Rational` produced by `parseNoteValueQuantity` on
any accepted token has an integer numerator and a strictly positive
integer denominator. -/
theorem parseNVQ_invariant (s : String) (r : Rational)
    (h : MnxUtils.parseNoteValueQuantity s = some r) :
    (∃ n : ℤ, r.numerator = (n : ℚ)) ∧ ∃ w : ℕ, 0 < w ∧ r.denominator = (w : ℚ) := by
  rcases hmr : matchNoteValue s.toList with _ | ⟨m, f, v, d⟩
  · unfold MnxUtils.parseNoteValueQuantity at h
    rw [hmr] at h
    cases h
  · by_cases hp : MnxUtils.isPowerOf2 v = true
    case neg =>
      have hp2 : MnxUtils.isPowerOf2 v = false := by
        rwa [Bool.not_eq_true] at hp
      unfold MnxUtils.parseNoteValueQuantity at h
      rw [hmr] at h
      simp [hp2] at h
    case pos =>
      obtain ⟨k, rfl⟩ := (isPowerOf2_iff v).1 hp
      rw [parseNVQ_eq s m f (2 ^ k) d hmr hp] at h
      obtain rfl : r = _ := (Option.some.inj h).symm
      cases f with
      | true =>
        simp only [eq_self_iff_true, if_true]
        push_cast
        rw [show (1 : ℚ) / 2 ^ k / 2 ^ d = (2 : ℚ) ^ 0 / 2 ^ (k + d) by
          rw [pow_zero, div_div, ← pow_add]]
        exact branch_invariant _ ((m : ℤ) * (2 ^ (d + 1) - 1)) (by push_cast; ring) 0 (k + d)
      | false =>
        simp only [Bool.false_eq_true, if_false]
        push_cast
        exact branch_invariant _ ((m : ℤ) * (2 ^ (d + 1) - 1)) (by push_cast; ring) k d

/-- C9 (amended): every `Rational` the program produces has an integer
numerator; `parseNoteValueQuantity` always produces a strictly positive
integer denominator; `parseRational` produces a nonnegative integer
denominator — strictly positive exactly when it is nonzero, since the
denominator capture `(\d+)` also accepts the digit string `0`. -/
theorem rational_invariant (s : String) :
    (∀ r : Rational, parseRational s = some r →
      (∃ n : ℤ, r.numerator = (n : ℚ)) ∧
      (∃ w : ℕ, r.denominator = (w : ℚ)) ∧
      0 ≤ r.denominator ∧
      (r.denominator ≠ 0 → 0 < r.denominator)) ∧
    (∀ r : Rational, MnxUtils.parseNoteValueQuantity s = some r →
      (∃ n : ℤ, r.numerator = (n : ℚ)) ∧ ∃ w : ℕ, 0 < w ∧ r.denominator = (w : ℚ)) := by
  constructor
  · intro r hr
    unfold parseRational at hr
    rcases hmr : matchRational s.toList with _ | ⟨n, dnat⟩
    · rw [hmr] at hr
      cases hr
    · rw [hmr] at hr
      obtain rfl : r = _ := (Option.some.inj hr).symm
      exact ⟨⟨n, rfl⟩, ⟨dnat, rfl⟩, by positivity,
             fun hne => lt_of_le_of_ne (by positivity) (Ne.symm hne)⟩
  · exact fun r => parseNVQ_invariant s r

/-- C9 counterexample: the claim that `parseRational` never yields a
`Rational` with denominator 0 is false — the input `"1/0"` matches
`^(-?\d+)\/(\d+)$` and produces denominator 0. -/
theorem rational_invariant_cex :
    ¬ (∀ (s : String) (r : Rational), parseRational s = some r → r.denominator ≠ 0) := by
  intro h
  have hm : matchRational "1/0".toList = some (1, 0) := by decide
  have hparse : parseRational "1/0" = some ⟨1, 0⟩ := by
    unfold parseRational
    rw [hm]
    norm_num
  exact h "1/0" ⟨1, 0⟩ hparse rfl

/-- C9 witness: the amended invariant applied at the concrete inputs
`"3/4"` (for `parseRational`) and `"/4"` (for `parseNoteValueQuantity`). -/
theorem rational_invariant_witness :
    (parseRational "3/4" = some ⟨3, 4⟩ ∧
      (0 : ℚ) ≤ Rational.denominator ⟨3, 4⟩ ∧
      (Rational.denominator ⟨3, 4⟩ ≠ 0 → (0 : ℚ) < Rational.denominator ⟨3, 4⟩)) ∧
    (MnxUtils.parseNoteValueQuantity "/4" = some ⟨1, 4⟩ ∧
      ∃ w : ℕ, 0 < w ∧ Rational.denominator ⟨1, 4⟩ = (w : ℚ)) := by
  have hm34 : matchRational "3/4".toList = some (3, 4) := by decide
  have h34 : parseRational "3/4" = some ⟨3, 4⟩ := by
    unfold parseRational
    rw [hm34]
    norm_num
  have h4 : MnxUtils.parseNoteValueQuantity "/4" = some ⟨1, 4⟩ := by
    rw [parseNVQ_eq "/4" 1 true 4 0 (by decide) (by decide)]
    norm_num
  obtain ⟨-, -, hnn, hpos⟩ := (rational_invariant "3/4").1 ⟨3, 4⟩ h34
  obtain ⟨-, hden⟩ := (rational_invariant "/4").2 ⟨1, 4⟩ h4
  exact ⟨⟨h34, hnn, hpos⟩, h4, hden⟩

theorem sortTempos_perm (l : List TempoEntry) : (sortTempos l).Perm l :=
  List.perm_insertionSort _ l

theorem sortTempos_sorted (l : List TempoEntry) :
    List.Sorted (fun a b : TempoEntry => a.start ≤ b.start) (sortTempos l) :=
  List.sorted_insertionSort _ l

theorem resolvedTempos_empty (p : GmnxPerformance) (h : p.tempos = []) :
    resolvedTempos p = [⟨0, 1⟩] := by
  unfold resolvedTempos sortTempos
  rw [h]
  rfl

theorem resolvedTempos_of_ne (p : GmnxPerformance) (h : p.tempos ≠ []) :
    resolvedTempos p = sortTempos p.tempos := by
  unfold resolvedTempos
  rw [if_neg]
  intro he
  have hnil : sortTempos p.tempos = [] := List.isEmpty_iff.1 he
  exact h (hnil ▸ sortTempos_perm p.tempos).symm.eq_nil

/-- The head of the resolved tempo list is a minimal-start entry: it is a
member of the resolved list, its `unitSeconds` is the resolved timescale,
its `start` is a lower bound for every declared entry, and it is itself a
declared entry whenever any were declared. -/
theorem resolvedTimescale_head (p : GmnxPerformance) :
    ∃ e : TempoEntry, e ∈ resolvedTempos p ∧ resolvedTimescale p = e.unitSeconds ∧
      (∀ f ∈ p.tempos, e.start ≤ f.start) ∧ (p.tempos ≠ [] → e ∈ p.tempos) := by
  by_cases h : p.tempos = []
  · refine ⟨⟨0, 1⟩, ?_, ?_, ?_, fun hne => absurd h hne⟩
    · rw [resolvedTempos_empty p h]
      exact List.mem_singleton_self _
    · unfold resolvedTimescale
      rw [resolvedTempos_empty p h]
      rfl
    · intro f hf
      rw [h] at hf
      cases hf
  · rcases hsort : sortTempos p.tempos with _ | ⟨hd, tl⟩
    · exact absurd (hsort ▸ sortTempos_perm p.tempos).symm.eq_nil h
    · have hres : resolvedTempos p = hd :: tl := by
        rw [resolvedTempos_of_ne p h, hsort]
      refine ⟨hd, ?_, ?_, ?_, fun _ => ?_⟩
      · rw [hres]
        exact List.mem_cons_self _ _
      · unfold resolvedTimescale
        rw [hres]
        rfl
      · intro f hf
        have hfs : f ∈ hd :: tl := by
          rw [← hsort]
          exact ((sortTempos_perm p.tempos).symm.mem_iff).1 hf
        have hsorted := sortTempos_sorted p.tempos
        rw [hsort, List.sorted_cons] at hsorted
        rcases List.mem_cons.1 hfs with rfl | hft
        · exact le_refl _
        · exact hsorted.1 f hft
      · have : hd ∈ sortTempos p.tempos := by
          rw [hsort]
          exact List.mem_cons_self _ _
        exact (sortTempos_perm p.tempos).subset this

theorem prepare_fst_tempos (p : GmnxPerformance) (tr : Transport) (hs : p.scheduled = false) :
    (prepare p tr).1.tempos = resolvedTempos p := by
  simp [prepare, hs]

theorem prepare_fst_timescale (p : GmnxPerformance) (tr : Transport) (hs : p.scheduled = false) :
    (prepare p tr).1.timescale = some (resolvedTimescale p) := by
  simp [prepare, hs]

theorem prepare_snd_callbacks (p : GmnxPerformance) (tr : Transport) (hs : p.scheduled = false) :
    (prepare p tr).2.callbacks =
      tr.callbacks.filter (fun c => decide (c.1 < 0)) ++ prepareCallbacks p := by
  simp [prepare, hs]

/-- C1: an effective `prepare()` sorts the tempo entries ascending by
`start`; with no declared entries it installs the implicit entry
`{start: 0, unitSeconds: 1}` and resolves timescale 1; the resolved
timescale is the `unitSeconds` of an entry whose `start` is minimal among
all declared entries (that entry being a declared one whenever any exist);
and the resolved timescale does not depend on the declaration order, for
any tempo list whose minimal-start entries agree on `unitSeconds`. -/
theorem tempo_resolution (p : GmnxPerformance) (tr : Transport) (hs : p.scheduled = false) :
    List.Sorted (fun a b : TempoEntry => a.start ≤ b.start) ((prepare p tr).1.tempos) ∧
    (p.tempos = [] → (prepare p tr).1.tempos = [⟨0, 1⟩] ∧ (prepare p tr).1.timescale = some 1) ∧
    (∃ e : TempoEntry, e ∈ (prepare p tr).1.tempos ∧ (∀ f ∈ p.tempos, e.start ≤ f.start) ∧
      (prepare p tr).1.timescale = some e.unitSeconds ∧ (p.tempos ≠ [] → e ∈ p.tempos)) ∧
    (∀ (q : GmnxPerformance) (tr2 : Transport), q.scheduled = false → q.tempos.Perm p.tempos →
      (∀ f ∈ p.tempos, ∀ g ∈ p.tempos,
        (∀ x ∈ p.tempos, f.start ≤ x.start) → (∀ x ∈ p.tempos, g.start ≤ x.start) →
        f.unitSeconds = g.unitSeconds) →
      (prepare q tr2).1.timescale = (prepare p tr).1.timescale) := by
  rw [prepare_fst_tempos p tr hs, prepare_fst_timescale p tr hs]
  refine ⟨?_, ?_, ?_, ?_⟩
  · by_cases h : p.tempos = []
    · rw [resolvedTempos_empty p h]
      exact List.sorted_singleton _
    · rw [resolvedTempos_of_ne p h]
      exact sortTempos_sorted _
  · intro h
    refine ⟨resolvedTempos_empty p h, ?_⟩
    unfold resolvedTimescale
    rw [resolvedTempos_empty p h]
    rfl
  · obtain ⟨e, hmem, hts, hmin, hdecl⟩ := resolvedTimescale_head p
    exact ⟨e, hmem, hmin, by rw [hts], hdecl⟩
  · intro q tr2 hq hperm hagree
    rw [prepare_fst_timescale q tr2 hq]
    obtain ⟨eq2, _, htq, hminq, hdeclq⟩ := resolvedTimescale_head q
    obtain ⟨ep, _, htp, hminp, hdeclp⟩ := resolvedTimescale_head p
    by_cases h : p.tempos = []
    · have hq0 : q.tempos = [] := (h ▸ hperm).eq_nil
      unfold resolvedTimescale
      rw [resolvedTempos_empty p h, resolvedTempos_empty q hq0]
    · have hqne : q.tempos ≠ [] := by
        intro hq0
        exact h (hq0 ▸ hperm).symm.eq_nil
      have heqmem : eq2 ∈ p.tempos := hperm.subset (hdeclq hqne)
      have hepmem : ep ∈ p.tempos := hdeclp h
      have heqmin : ∀ x ∈ p.tempos, eq2.start ≤ x.start := fun x hx =>
        hminq x (hperm.symm.subset hx)
      have hunits : eq2.unitSeconds = ep.unitSeconds :=
        hagree eq2 heqmem ep hepmem heqmin hminp
      rw [htq, htp, hunits]

/-- C1 witness: for declared tempo entries with starts 4 and 0 (in that
declaration order), the resolved timescale is the `unitSeconds` of the
entry with start 0, and reversing the declaration order resolves the same
timescale. -/
theorem tempo_resolution_witness :
    (prepare { basePerf with tempos := [⟨4, 2⟩, ⟨0, 7⟩] } emptyTransport).1.timescale = some 7 ∧
    (prepare { basePerf with tempos := [⟨0, 7⟩, ⟨4, 2⟩] } emptyTransport).1.timescale =
      (prepare { basePerf with tempos := [⟨4, 2⟩, ⟨0, 7⟩] } emptyTransport).1.timescale := by
  constructor
  · rw [prepare_fst_timescale _ _ rfl]
    norm_num [resolvedTimescale, resolvedTempos, sortTempos, List.insertionSort,
      List.orderedInsert, basePerf]
  · refine (tempo_resolution { basePerf with tempos := [⟨4, 2⟩, ⟨0, 7⟩] } emptyTransport
      rfl).2.2.2 _ emptyTransport rfl (List.Perm.swap _ _ _) ?_
    intro f hf g hg hfm hgm
    simp only [List.mem_cons, List.not_mem_nil, or_false] at hf hg
    rcases hf with rfl | rfl <;> rcases hg with rfl | rfl
    · rfl
    · have h40 := hfm ⟨0, 7⟩ (by simp)
      norm_num at h40
    · have h40 := hgm ⟨0, 7⟩ (by simp)
      norm_num at h40
    · rfl

theorem prepare_of_scheduled (p : GmnxPerformance) (tr : Transport) (h : p.scheduled = true) :
    prepare p tr = (p, tr) := by
  simp [prepare, h]

/-- C4: `prepare()` is idempotent — a second call is a no-op guarded by the
`scheduled` flag, so performance state and Transport callbacks after two
calls equal those after one call, and tempo resolution runs at most once. -/
theorem prepare_idempotent (p : GmnxPerformance) (tr : Transport) :
    prepare (prepare p tr).1 (prepare p tr).2 = prepare p tr := by
  by_cases h : p.scheduled = true
  · rw [prepare_of_scheduled p tr h]
    exact prepare_of_scheduled p tr h
  · have h1 : (prepare p tr).1.scheduled = true := by
      rw [Bool.not_eq_true] at h
      simp [prepare, h]
    rw [prepare_of_scheduled _ _ h1]

/-- C5: after `stop()` (either variant), every decoration that was in the
active set is no longer highlighted, the active set is empty, the Transport
is halted, no synthesizer voice is sounding, and no buffer source is
playing. -/
theorem stop_postcondition (p : GmnxPerformance) (tr : Transport) :
    (∀ d ∈ p.activeRegions, (GmnxPerformance.stop p tr).1.highlighted d = false) ∧
    (GmnxPerformance.stop p tr).1.activeRegions = [] ∧
    (GmnxPerformance.stop p tr).2.running = false ∧
    soundingVoices (GmnxPerformance.stop p tr).1.kind = 0 ∧
    audioSource (GmnxPerformance.stop p tr).1.kind = none := by
  unfold GmnxPerformance.stop
  cases hk : p.kind with
  | data events synth =>
    refine ⟨fun d hd => by simp [hd], rfl, rfl, ?_, rfl⟩
    cases synth <;> rfl
  | audio src =>
    exact ⟨fun d hd => by simp [hd], rfl, rfl, rfl, rfl⟩

/-- A data performance with two active decorations and three sounding
voices, used as a concrete stop input. -/
def twoActivePerf : GmnxPerformance :=
  { basePerf with
      activeRegions := [0, 1]
      highlighted := fun _ => true
      kind := .data [] (some 3) }

/-- C5 witness: stopping a data performance with two active decorations and
three sounding voices hides both decorations, empties the active set, halts
the Transport, and releases the voices. -/
theorem stop_postcondition_witness :
    (GmnxPerformance.stop twoActivePerf emptyTransport).1.highlighted 0 = false ∧
    (GmnxPerformance.stop twoActivePerf emptyTransport).1.highlighted 1 = false ∧
    (GmnxPerformance.stop twoActivePerf emptyTransport).1.activeRegions = [] ∧
    (GmnxPerformance.stop twoActivePerf emptyTransport).2.running = false ∧
    soundingVoices (GmnxPerformance.stop twoActivePerf emptyTransport).1.kind = 0 := by
  obtain ⟨hhide, hact, hrun, hvoice, -⟩ := stop_postcondition twoActivePerf emptyTransport
  refine ⟨hhide 0 ?_, hhide 1 ?_, hact, hrun, hvoice⟩ <;> simp [twoActivePerf, basePerf]

/-- C7: while highlighted, each polling tick computes
`p = (elapsedBeats - start) / (end - start)` (with elapsed beats the
Transport seconds divided by the timescale) and linearly interpolates all
four coordinates; at the times corresponding to `p = 0` and `p = 1` it
reproduces `cursorStart` and `cursorEnd` exactly, and `p` is not clamped:
past-the-end times extrapolate strictly beyond the endpoint. -/
theorem cursor_interpolation (ts st en : ℚ) (cs ce : CursorLine)
    (hts : ts ≠ 0) (hne : en - st ≠ 0) :
    cursorTick ts st en cs ce (st * ts) = cs ∧
    cursorTick ts st en cs ce (en * ts) = ce ∧
    (∀ t : ℚ, cursorTick ts st en cs ce t =
      ⟨cs.x1 + (t / ts - st) / (en - st) * (ce.x1 - cs.x1),
       cs.y1 + (t / ts - st) / (en - st) * (ce.y1 - cs.y1),
       cs.x2 + (t / ts - st) / (en - st) * (ce.x2 - cs.x2),
       cs.y2 + (t / ts - st) / (en - st) * (ce.y2 - cs.y2)⟩) ∧
    (∀ t : ℚ, st < en → en < t / ts → cs.x1 < ce.x1 →
      ce.x1 < (cursorTick ts st en cs ce t).x1) := by
  refine ⟨?_, ?_, fun t => rfl, ?_⟩
  · obtain ⟨a1, b1, a2, b2⟩ := cs
    simp [cursorTick, mul_div_cancel_right₀ _ hts]
  · obtain ⟨a1, b1, a2, b2⟩ := cs
    obtain ⟨c1, d1, c2, d2⟩ := ce
    simp only [cursorTick, mul_div_cancel_right₀ _ hts, div_self hne, one_mul,
      CursorLine.mk.injEq]
    refine ⟨by ring, by ring, by ring, by ring⟩
  · intro t h1 h2 h3
    simp only [cursorTick]
    have hp : 1 < (t / ts - st) / (en - st) :=
      (one_lt_div (sub_pos.2 h1)).2 (sub_lt_sub_right h2 st)
    have key := mul_lt_mul_of_pos_right hp (sub_pos.2 h3)
    rw [one_mul] at key
    linarith

/-- C7 witness: the interpolation evaluated with timescale 2 on the beat
interval [0, 1]: at transport time 0 it reproduces `cursorStart`, at
transport time 2 it reproduces `cursorEnd`, and at transport time 4
(`p = 2`) it extrapolates strictly past `cursorEnd`. -/
theorem cursor_interpolation_witness :
    cursorTick 2 0 1 ⟨0, 1, 2, 3⟩ ⟨10, 11, 12, 13⟩ 0 = ⟨0, 1, 2, 3⟩ ∧
    cursorTick 2 0 1 ⟨0, 1, 2, 3⟩ ⟨10, 11, 12, 13⟩ 2 = ⟨10, 11, 12, 13⟩ ∧
    (10 : ℚ) < (cursorTick 2 0 1 ⟨0, 1, 2, 3⟩ ⟨10, 11, 12, 13⟩ 4).x1 := by
  obtain ⟨h0, h1, -, hx⟩ := cursor_interpolation 2 0 1 ⟨0, 1, 2, 3⟩ ⟨10, 11, 12, 13⟩
    (by norm_num) (by norm_num)
  norm_num at h0 h1
  exact ⟨h0, h1, hx 4 (by norm_num) (by norm_num) (by norm_num)⟩

theorem scheduleRegionsAux_mem (ts : ℚ) (j : Nat) (l : List RegionEntry) (i : Nat)
    (r : RegionEntry) (h : l[i]? = some r) :
    (r.start * ts, SchedAction.showRegion (j + i)) ∈ scheduleRegionsAux ts j l ∧
    (r.end_ * ts, SchedAction.hideRegion (j + i)) ∈ scheduleRegionsAux ts j l := by
  induction l generalizing j i with
  | nil => simp at h
  | cons hd tl ih =>
    cases i with
    | zero =>
      have hh : hd = r := by simpa using h
      subst hh
      constructor <;> simp [scheduleRegionsAux]
    | succ i =>
      have hh := ih (j + 1) i (by simpa using h)
      have hidx : j + (i + 1) = (j + 1) + i := by omega
      rw [hidx]
      exact ⟨List.mem_cons_of_mem _ (List.mem_cons_of_mem _ hh.1),
             List.mem_cons_of_mem _ (List.mem_cons_of_mem _ hh.2)⟩

theorem scheduleEventsAux_mem (ts : ℚ) (j : Nat) (l : List EventEntry) (i : Nat)
    (e : EventEntry) (h : l[i]? = some e) :
    (e.start * ts, SchedAction.triggerSynth e.frequency (e.duration * ts) (e.dynamics / 127))
      ∈ scheduleEventsAux ts j l ∧
    ((e.view.isSome && e.graphics.isSome) = true →
      (e.start * ts, SchedAction.showGraphics (j + i)) ∈ scheduleEventsAux ts j l ∧
      ((e.start + e.duration) * ts, SchedAction.hideGraphics (j + i))
        ∈ scheduleEventsAux ts j l) := by
  induction l generalizing j i with
  | nil => simp at h
  | cons hd tl ih =>
    cases i with
    | zero =>
      have hh : hd = e := by simpa using h
      subst hh
      refine ⟨List.mem_cons_self _ _, fun hg => ?_⟩
      constructor
      · apply List.mem_cons_of_mem
        apply List.mem_append_left
        rw [if_pos hg]
        simp
      · apply List.mem_cons_of_mem
        apply List.mem_append_left
        rw [if_pos hg]
        simp
    | succ i =>
      have hh := ih (j + 1) i (by simpa using h)
      have hidx : j + (i + 1) = (j + 1) + i := by omega
      refine ⟨List.mem_cons_of_mem _ (List.mem_append_right _ hh.1), fun hg => ?_⟩
      rw [hidx]
      obtain ⟨h1, h2⟩ := hh.2 hg
      exact ⟨List.mem_cons_of_mem _ (List.mem_append_right _ h1),
             List.mem_cons_of_mem _ (List.mem_append_right _ h2)⟩

/-- C3 (amended): for every event of a prepared data performance,
`prepare()` registers one Transport callback at `event.start * timescale`
triggering the synthesizer for `event.duration * timescale` seconds at the
event's frequency with velocity `dynamics / 127`; and when the event
carries graphics *and references a view*, a paired show callback at
`event.start * timescale` and a hide callback at
`(event.start + event.duration) * timescale`. -/
theorem event_scheduling (p : GmnxPerformance) (tr : Transport)
    (events : List EventEntry) (synth : Option Nat)
    (hs : p.scheduled = false) (hk : p.kind = .data events synth)
    (i : Nat) (e : EventEntry) (he : (sortEvents events)[i]? = some e) :
    (e.start * resolvedTimescale p,
      SchedAction.triggerSynth e.frequency (e.duration * resolvedTimescale p) (e.dynamics / 127))
      ∈ (prepare p tr).2.callbacks ∧
    ((e.view.isSome && e.graphics.isSome) = true →
      (e.start * resolvedTimescale p, SchedAction.showGraphics i) ∈ (prepare p tr).2.callbacks ∧
      ((e.start + e.duration) * resolvedTimescale p, SchedAction.hideGraphics i)
        ∈ (prepare p tr).2.callbacks) := by
  rw [prepare_snd_callbacks p tr hs]
  unfold prepareCallbacks
  rw [hk]
  have hmem := scheduleEventsAux_mem (resolvedTimescale p) 0 (sortEvents events) i e he
  rw [Nat.zero_add] at hmem
  refine ⟨?_, fun hg => ?_⟩
  · exact List.mem_append_right _ (List.mem_append_left _ hmem.1)
  · obtain ⟨h1, h2⟩ := hmem.2 hg
    exact ⟨List.mem_append_right _ (List.mem_append_left _ h1),
           List.mem_append_right _ (List.mem_append_left _ h2)⟩

/-- An event with graphics and a view, the concrete scheduling input. -/
def graphicsEvent : EventEntry := ⟨0, 440, 1, 64, some "v", some ["g"]⟩

/-- A data performance holding only `graphicsEvent`. -/
def dataPerf : GmnxPerformance := { basePerf with kind := .data [graphicsEvent] none }

/-- C3 witness: the single event `{start: 0, duration: 1, frequency: 440,
dynamics: 64}` with timescale 1 is scheduled at time 0 triggering for 1
second at 440 Hz with velocity 64/127, with its paired show callback at
time 0 and hide callback at time 1. -/
theorem event_scheduling_witness :
    ((0 : ℚ), SchedAction.triggerSynth 440 1 (64 / 127))
      ∈ (prepare dataPerf emptyTransport).2.callbacks ∧
    ((0 : ℚ), SchedAction.showGraphics 0) ∈ (prepare dataPerf emptyTransport).2.callbacks ∧
    ((1 : ℚ), SchedAction.hideGraphics 0) ∈ (prepare dataPerf emptyTransport).2.callbacks := by
  have h := event_scheduling dataPerf emptyTransport [graphicsEvent] none rfl rfl 0
    graphicsEvent rfl
  have hts : resolvedTimescale dataPerf = 1 := rfl
  obtain ⟨h1, h2⟩ := h
  obtain ⟨h3, h4⟩ := h2 rfl
  rw [hts] at h1 h3 h4
  norm_num [graphicsEvent] at h1 h3 h4
  exact ⟨h1, h3, h4⟩

/-- An event carrying graphics but referencing no view. -/
def orphanEvent : EventEntry := ⟨0, 440, 1, 64, none, some ["g"]⟩

/-- A data performance holding only `orphanEvent`. -/
def orphanPerf : GmnxPerformance := { basePerf with kind := .data [orphanEvent] none }

/-- C3 counterexample: an event that carries graphics but references no
view gets no show callback at all — `prepare` registers only its
synthesizer trigger, refuting the claim that carrying graphics alone
suffices for the paired show/hide callbacks. -/
theorem event_scheduling_cex :
    ¬ ∃ t : ℚ, (t, SchedAction.showGraphics 0) ∈ (prepare orphanPerf emptyTransport).2.callbacks := by
  have hcb : (prepare orphanPerf emptyTransport).2.callbacks
      = [(0 * 1, SchedAction.triggerSynth 440 (1 * 1) (64 / 127))] := by
    rw [prepare_snd_callbacks _ _ rfl]
    rfl
  rintro ⟨t, ht⟩
  rw [hcb] at ht
  simp at ht

/-- C8 (amended): for every region of a prepared performance, `prepare()`
registers its show callback at `start * timescale` and its hide callback at
`end * timescale`; the show time strictly precedes the hide time whenever
`start < end` and the timescale is positive.  No construction-time
rejection exists: `addRegion` accepts any interval, and a region with
`end ≤ start` is scheduled with its hide not after its show (see the
counterexample). -/
theorem region_scheduling (p : GmnxPerformance) (tr : Transport)
    (hs : p.scheduled = false) (i : Nat) (r : RegionEntry) (hr : p.regions[i]? = some r) :
    (r.start * resolvedTimescale p, SchedAction.showRegion i) ∈ (prepare p tr).2.callbacks ∧
    (r.end_ * resolvedTimescale p, SchedAction.hideRegion i) ∈ (prepare p tr).2.callbacks ∧
    (0 < resolvedTimescale p → r.start < r.end_ →
      r.start * resolvedTimescale p < r.end_ * resolvedTimescale p) := by
  rw [prepare_snd_callbacks p tr hs]
  unfold prepareCallbacks scheduleRegionsCallbacks
  have hmem := scheduleRegionsAux_mem (resolvedTimescale p) 0 p.regions i r hr
  rw [Nat.zero_add] at hmem
  exact ⟨List.mem_append_right _ (List.mem_append_right _ hmem.1),
         List.mem_append_right _ (List.mem_append_right _ hmem.2),
         fun hts hlt => mul_lt_mul_of_pos_right hlt hts⟩

/-- A performance with a single well-formed region on the beat interval
[0, 1]. -/
def regPerf : GmnxPerformance :=
  { basePerf with regions := [⟨0, 1, "v", "r", none, none⟩] }

/-- C8 witness: with timescale 1 the region [0, 1] gets its show callback
at time 0 and its hide callback at time 1, the show strictly first. -/
theorem region_scheduling_witness :
    ((0 : ℚ), SchedAction.showRegion 0) ∈ (prepare regPerf emptyTransport).2.callbacks ∧
    ((1 : ℚ), SchedAction.hideRegion 0) ∈ (prepare regPerf emptyTransport).2.callbacks ∧
    (0 : ℚ) * resolvedTimescale regPerf < 1 * resolvedTimescale regPerf := by
  obtain ⟨hshow, hhide, hlt⟩ :=
    region_scheduling regPerf emptyTransport rfl 0 ⟨0, 1, "v", "r", none, none⟩ rfl
  have hts : resolvedTimescale regPerf = 1 := rfl
  rw [hts] at hshow hhide
  norm_num at hshow hhide
  exact ⟨hshow, hhide, hlt (by rw [hts]; norm_num) (by norm_num)⟩

/-- A performance with a single inverted region (`end < start`). -/
def badRegPerf : GmnxPerformance :=
  { basePerf with regions := [⟨1, 0, "v", "r", none, none⟩] }

/-- C8 counterexample: a region with `start = 1`, `end = 0` is not rejected
— `prepare` schedules it anyway, its show callback at time 1 and its hide
callback at time 0, so its show is *not* strictly earlier than its hide. -/
theorem region_scheduling_cex :
    ((1 : ℚ) * 1, SchedAction.showRegion 0) ∈ (prepare badRegPerf emptyTransport).2.callbacks ∧
    ((0 : ℚ) * 1, SchedAction.hideRegion 0) ∈ (prepare badRegPerf emptyTransport).2.callbacks ∧
    ¬ ((1 : ℚ) * 1 < 0 * 1) := by
  have hcb : (prepare badRegPerf emptyTransport).2.callbacks
      = [((0 : ℚ), SchedAction.startBuffer),
         (1 * 1, SchedAction.showRegion 0), (0 * 1, SchedAction.hideRegion 0)] := by
    rw [prepare_snd_callbacks _ _ rfl]
    rfl
  rw [hcb]
  refine ⟨by simp, by simp, by norm_num⟩

/-- Preparing an unscheduled performance against a Transport holding only
nonnegative-time callbacks leaves exactly that performance's own callbacks
registered (the `cancel(0)` wipes everything at time `≥ 0`). -/
theorem prepare_wipes_nonneg (x : GmnxPerformance) (tr : Transport)
    (hx : x.scheduled = false) (htr : ∀ c ∈ tr.callbacks, 0 ≤ c.1) :
    (prepare x tr).2.callbacks = prepareCallbacks x := by
  rw [prepare_snd_callbacks x tr hx]
  have hfil : tr.callbacks.filter (fun c => decide (c.1 < 0)) = [] := by
    rw [List.filter_eq_nil_iff]
    intro c hc
    simpa using not_lt.2 (htr c hc)
  rw [hfil, List.nil_append]

theorem prepareAll_last (ps : List GmnxPerformance) (q : GmnxPerformance) :
    ∀ tr : Transport,
      (∀ x ∈ ps ++ [q], x.scheduled = false) →
      (∀ c ∈ tr.callbacks, 0 ≤ c.1) →
      (∀ x ∈ ps ++ [q], ∀ c ∈ prepareCallbacks x, 0 ≤ c.1) →
      (prepareAll (ps ++ [q]) tr).callbacks = prepareCallbacks q := by
  induction ps with
  | nil =>
    intro tr hsched htr _
    show (prepare q tr).2.callbacks = prepareCallbacks q
    exact prepare_wipes_nonneg q tr (hsched q (by simp)) htr
  | cons hd tl ih =>
    intro tr hsched htr hnn
    show (prepareAll (tl ++ [q]) (prepare hd tr).2).callbacks = prepareCallbacks q
    refine ih (prepare hd tr).2 ?_ ?_ ?_
    · exact fun x hx => hsched x (List.mem_cons_of_mem _ hx)
    · intro c hc
      rw [prepare_wipes_nonneg hd tr (hsched hd (by simp)) htr] at hc
      exact hnn hd (by simp) c hc
    · exact fun x hx => hnn x (List.mem_cons_of_mem _ hx)

/-- C10: `prepare()` cancels every callback registered on the shared
Transport from time 0 onward before registering its own — the surviving
prefix is exactly the strictly-negative-time callbacks; consequently, when
the load sequence prepares a list of (unscheduled) performances in order
over a Transport whose callbacks all sit at time `≥ 0` (as all callbacks
this engine registers do for nonnegative beat positions and timescales),
only the callbacks of the last-prepared performance remain. -/
theorem prepare_cancels_shared_transport (p : GmnxPerformance) (tr : Transport)
    (hs : p.scheduled = false) :
    (prepare p tr).2.callbacks =
      tr.callbacks.filter (fun c => decide (c.1 < 0)) ++ prepareCallbacks p ∧
    (∀ (ps : List GmnxPerformance) (q : GmnxPerformance) (tr2 : Transport),
      (∀ x ∈ ps ++ [q], x.scheduled = false) →
      (∀ c ∈ tr2.callbacks, 0 ≤ c.1) →
      (∀ x ∈ ps ++ [q], ∀ c ∈ prepareCallbacks x, 0 ≤ c.1) →
      (prepareAll (ps ++ [q]) tr2).callbacks = prepareCallbacks q) :=
  ⟨prepare_snd_callbacks p tr hs,
   fun ps q tr2 h1 h2 h3 => prepareAll_last ps q tr2 h1 h2 h3⟩

/-- C10 witness: preparing first a performance with a region and then a
plain audio performance leaves only the latter's single buffer-start
callback on the shared Transport — the first performance's region
callbacks are gone. -/
theorem prepare_cancels_shared_transport_witness :
    (prepareAll [regPerf, basePerf] emptyTransport).callbacks
      = [((0 : ℚ), SchedAction.startBuffer)] := by
  have h2 : prepareCallbacks basePerf = [((0 : ℚ), SchedAction.startBuffer)] := rfl
  have h1 : prepareCallbacks regPerf
      = [((0 : ℚ), SchedAction.startBuffer),
         (0 * 1, SchedAction.showRegion 0), (1 * 1, SchedAction.hideRegion 0)] := rfl
  rw [← h2]
  refine (prepare_cancels_shared_transport basePerf emptyTransport rfl).2
    [regPerf] basePerf emptyTransport ?_ ?_ ?_
  · intro x hx
    simp only [List.cons_append, List.nil_append, List.mem_cons, List.not_mem_nil,
      or_false] at hx
    rcases hx with rfl | rfl <;> rfl
  · intro c hc
    simp [emptyTransport] at hc
  · intro x hx c hc
    simp only [List.cons_append, List.nil_append, List.mem_cons, List.not_mem_nil,
      or_false] at hx
    rcases hx with rfl | rfl
    · rw [h1] at hc
      simp only [List.mem_cons, List.not_mem_nil, or_false] at hc
      rcases hc with rfl | rfl | rfl <;> norm_num
    · rw [h2] at hc
      simp only [List.mem_cons, List.not_mem_nil, or_false] at hc
      rw [hc]

/-- C4 witness: idempotence at a concrete performance and Transport. -/
theorem prepare_idempotent_witness :
    prepare (prepare basePerf emptyTransport).1 (prepare basePerf emptyTransport).2
      = prepare basePerf emptyTransport :=
  prepare_idempotent basePerf emptyTransport
